import Mathlib

/-!
Verification development for the `authentik-enum` version-fingerprinting tool
(single Python source file `authentik-enum.py`).

The pure core of the program is embedded shallowly:

* `normalize_tag`        — tag normalization (`strip`, one `^version/`, one `^v`);
* `parse_link_header`    — the RFC-5988-style `Link` header parsing;
* `github_fetch_release_tags` — the paginated tag collection loop, with the
  network abstracted as an environment `url ↦ (page body, Link header)` plus a
  fuel bound (the real loop may run as long as the index keeps producing
  `rel="next"` continuations);
* MD5 (`md5Update` / `md5Final`) — a full executable MD5 so that the chunked
  digest accumulation of `fetch_status_md5_bytes` is modelled faithfully;
* `fetch_status_md5_bytes` — the probe, with the network outcome abstracted as
  a `FetchOutcome` and Python's `try/except` control flow made explicit as an
  `Except` value run through the source's two handler clauses;
* `scanLoop` / `main_model` — the per-version policy loop and the exit-code
  logic of `main` (the dead `hits` counter, `--verbose` stderr output and the
  `time.sleep` calls have no effect on emitted records or the exit code and
  are omitted).

Machine integers are `Nat` with explicit `% 2^32` where MD5 overflow matters;
bytes are `Nat`s; strings are Lean `String`s (a structure around `List Char`).
-/

/-- Python `str.strip()` / regex `\s` whitespace predicate, restricted to the
ASCII range (the claims only exercise ASCII whitespace). -/
def pyIsSpace (c : Char) : Bool :=
  c == ' ' || c == '\t' || c == '\n' || c == '\r' || c == '\x0b' || c == '\x0c'

/-- Python `str.strip()` on a character list: drop whitespace from both ends. -/
def pyStripList (l : List Char) : List Char :=
  ((l.dropWhile pyIsSpace).reverse.dropWhile pyIsSpace).reverse

/-- Python `str.strip()` on strings. -/
def pyStrip (s : String) : String := ⟨pyStripList s.data⟩

/-- Python `str.rstrip("/")`: drop trailing slash characters. -/
def rstripSlashes (s : String) : String :=
  ⟨(s.data.reverse.dropWhile (fun c => c == '/')).reverse⟩

/-- Does `l` start with the literal pattern `p`? -/
def startsWith : List Char → List Char → Bool
  | [], _ => true
  | _ :: _, [] => false
  | p :: ps, c :: cs => p == c && startsWith ps cs

/-- `re.sub` with a `^`-anchored literal pattern (no MULTILINE): only the
single possible match at position 0 is removed. -/
def subAnchoredLit (pat : List Char) (l : List Char) : List Char :=
  if startsWith pat l then l.drop pat.length else l

/-- `normalize_tag` (source lines 18-22): `tag.strip()`, then
`re.sub(r"^version/", "", tag)`, then `re.sub(r"^v", "", tag)`. -/
def normalize_tag (s : String) : String :=
  ⟨subAnchoredLit ['v'] (subAnchoredLit ("version/").data (pyStripList s.data))⟩

/-- A string whose first character (if any) is neither whitespace nor `'v'`.
On such normalized values a second normalization pass is the identity. -/
def tagHeadSafe (s : String) : Bool :=
  match s.data with
  | [] => true
  | c :: _ => !pyIsSpace c && !(c == 'v')

/-- Python `link.split(",")` on a character list (keeps empty parts,
splits at every comma). -/
def splitComma : List Char → List (List Char)
  | [] => [[]]
  | c :: cs =>
    let r := splitComma cs
    if c == ',' then [] :: r
    else
      match r with
      | [] => [[c]]
      | h :: t => (c :: h) :: t

/-- The regex `^<([^>]+)>;\s*rel="([^"]+)"$` applied with `re.match` to one
(already stripped) part of the `Link` header; returns `(url, rel)` capture
groups on success.  The greedy `[^>]+` followed by the literal `>` is
equivalent to a nonempty `takeWhile (· ≠ '>')` followed by `'>'`, and
similarly for `[^"]+` followed by `"` at end of string. -/
def matchLinkRe (p : List Char) : Option (List Char × List Char) :=
  if startsWith ['<'] p then
    let rest := p.drop 1
    let url := rest.takeWhile (fun c => !(c == '>'))
    let rest2 := rest.drop url.length
    if startsWith ['>', ';'] rest2 then
      let rest3 := (rest2.drop 2).dropWhile pyIsSpace
      if startsWith ("rel=\"").data rest3 then
        let rest4 := rest3.drop (("rel=\"").data).length
        let rel := rest4.takeWhile (fun c => !(c == '"'))
        if rest4.drop rel.length = ['"'] then
          if url.isEmpty || rel.isEmpty then none else some (url, rel)
        else none
      else none
    else none
  else none

/-- `parse_link_header` (source lines 25-33): split on commas, strip each
part, match the link regex, and collect `rel ↦ url` into a dict.  The dict is
modelled as an association list built by prepending, so that
`List.lookup` returns the most recently written binding, matching Python
dict-assignment overwrite semantics. -/
def parse_link_header (link : String) : List (String × String) :=
  (splitComma link.data).foldl
    (fun d part =>
      match matchLinkRe (pyStripList part) with
      | some (url, rel) => (⟨rel⟩, ⟨url⟩) :: d
      | none => d)
    []

/-- The continuation URL the pagination loop uses:
`parse_link_header(link).get("next", "")` (source line 62). -/
def nextPageUrl (link : String) : String :=
  ((parse_link_header link).lookup ("next")).getD ("")

/-- One element of a release page: `normalize_tag(rel.get("tag_name") or "")`
followed by the dedup test (source lines 54-59).  The state is
`(versions, seen)`; Python's `set` is modelled as a list whose membership
agrees with `versions` (an invariant proved below). -/
def ghAdd (st : List String × List String) (raw : String) : List String × List String :=
  let tag := normalize_tag raw
  if tag = "" ∨ tag ∈ st.2 then st
  else (st.1 ++ [tag], tag :: st.2)

/-- Process one JSON page body: each element's `tag_name` field
(absent/null modelled as `none`, `or ""` turning it into `""`). -/
def ghPage (st : List String × List String) (body : List (Option String)) :
    List String × List String :=
  body.foldl (fun st o => ghAdd st (o.getD (""))) st

/-- `github_fetch_release_tags` (source lines 36-66): the `while url:` page
loop.  `env` abstracts the network: it maps a page URL to the page's list of
`tag_name` fields and its `Link` response header.  `fuel` bounds the number of
iterations (the source loop is unbounded; every claim about it is stated for
every fuel).  Request headers, the auth token and the inter-page sleep do not
affect the returned list and are not modelled. -/
def github_fetch_release_tags (env : String → List (Option String) × String) :
    Nat → String → (List String × List String) → (List String × List String)
  | 0, _, st => st
  | fuel + 1, url, st =>
    if url = "" then st
    else
      github_fetch_release_tags env fuel (nextPageUrl (env url).2)
        (ghPage st (env url).1)

/-- The raw `tag_name` strings encountered by the loop, page after page, in
index order (specification-side bookkeeping used to state first-seen order). -/
def ghRaws (env : String → List (Option String) × String) : Nat → String → List String
  | 0, _ => []
  | fuel + 1, url =>
    if url = "" then []
    else ((env url).1.map (fun o => o.getD (""))) ++ ghRaws env fuel (nextPageUrl (env url).2)

/-- Keep-first deduplication relative to an already-seen set.  This is the
specification-side description of the dedup the source performs. -/
def dedupFirstAux (seen : List String) : List String → List String
  | [] => []
  | t :: ts => if t ∈ seen then dedupFirstAux seen ts else t :: dedupFirstAux (t :: seen) ts

/-- Keep-first deduplication of a list. -/
def dedupFirst (l : List String) : List String := dedupFirstAux [] l

/-- Nonempty-string filter predicate (`if not tag: continue`). -/
def nonEmptyStr (t : String) : Bool := !(t == "")

/- ## MD5 -/

/-- Reduce to a 32-bit word. -/
def w32 (n : Nat) : Nat := n % 4294967296

/-- Bitwise NOT on a 32-bit word. -/
def wnot (n : Nat) : Nat := 4294967295 - (n % 4294967296)

/-- Rotate a 32-bit word left by `k` bits (`k < 32`). -/
def rotl (x k : Nat) : Nat :=
  (((x % 4294967296) <<< k) % 4294967296) ||| ((x % 4294967296) >>> (32 - k))

/-- MD5 per-round shift amounts. -/
def md5S : List Nat :=
  [7, 12, 17, 22, 7, 12, 17, 22, 7, 12, 17, 22, 7, 12, 17, 22,
   5, 9, 14, 20, 5, 9, 14, 20, 5, 9, 14, 20, 5, 9, 14, 20,
   4, 11, 16, 23, 4, 11, 16, 23, 4, 11, 16, 23, 4, 11, 16, 23,
   6, 10, 15, 21, 6, 10, 15, 21, 6, 10, 15, 21, 6, 10, 15, 21]

/-- MD5 sine-derived round constants. -/
def md5K : List Nat :=
  [0xd76aa478, 0xe8c7b756, 0x242070db, 0xc1bdceee,
   0xf57c0faf, 0x4787c62a, 0xa8304613, 0xfd469501,
   0x698098d8, 0x8b44f7af, 0xffff5bb1, 0x895cd7be,
   0x6b901122, 0xfd987193, 0xa679438e, 0x49b40821,
   0xf61e2562, 0xc040b340, 0x265e5a51, 0xe9b6c7aa,
   0xd62f105d, 0x02441453, 0xd8a1e681, 0xe7d3fbc8,
   0x21e1cde6, 0xc33707d6, 0xf4d50d87, 0x455a14ed,
   0xa9e3e905, 0xfcefa3f8, 0x676f02d9, 0x8d2a4c8a,
   0xfffa3942, 0x8771f681, 0x6d9d6122, 0xfde5380c,
   0xa4beea44, 0x4bdecfa9, 0xf6bb4b60, 0xbebfbc70,
   0x289b7ec6, 0xeaa127fa, 0xd4ef3085, 0x04881d05,
   0xd9d4d039, 0xe6db99e5, 0x1fa27cf8, 0xc4ac5665,
   0xf4292244, 0x432aff97, 0xab9423a7, 0xfc93a039,
   0x655b59c3, 0x8f0ccc92, 0xffeff47d, 0x85845dd1,
   0x6fa87e4f, 0xfe2ce6e0, 0xa3014314, 0x4e0811a1,
   0xf7537e82, 0xbd3af235, 0x2ad7d2bb, 0xeb86d391]

/-- Little-endian 32-bit message word `g` of a 64-byte block. -/
def wordAt (block : List Nat) (g : Nat) : Nat :=
  block.getD (4 * g) 0 + 256 * block.getD (4 * g + 1) 0 +
    65536 * block.getD (4 * g + 2) 0 + 16777216 * block.getD (4 * g + 3) 0

/-- One MD5 round (round index `i`, 0-based) on state `(a, b, c, d)`. -/
def md5Round (block : List Nat) (st : Nat × Nat × Nat × Nat) (i : Nat) :
    Nat × Nat × Nat × Nat :=
  match st with
  | (a, b, c, d) =>
    let fg : Nat × Nat :=
      if i < 16 then (((b &&& c) ||| (wnot b &&& d)), i)
      else if i < 32 then (((d &&& b) ||| (wnot d &&& c)), (5 * i + 1) % 16)
      else if i < 48 then ((b ^^^ c ^^^ d), (3 * i + 5) % 16)
      else ((c ^^^ (b ||| wnot d)), (7 * i) % 16)
    let f := w32 (fg.1 + a + md5K.getD i 0 + wordAt block fg.2)
    (d, w32 (b + rotl f (md5S.getD i 0)), b, c)

/-- MD5 compression: 64 rounds over one 64-byte block, then the feed-forward
addition of the incoming state. -/
def md5Compress (h : Nat × Nat × Nat × Nat) (block : List Nat) : Nat × Nat × Nat × Nat :=
  match (List.range 64).foldl (md5Round block) h with
  | (a, b, c, d) =>
    (w32 (h.1 + a), w32 (h.2.1 + b), w32 (h.2.2.1 + c), w32 (h.2.2.2 + d))

/-- Run `n` compression steps, consuming 64 bytes of `bs` per step
(any leftover bytes beyond `64 * n` are untouched). -/
def md5Blocks : Nat → (Nat × Nat × Nat × Nat) → List Nat → Nat × Nat × Nat × Nat
  | 0, h, _ => h
  | n + 1, h, bs => md5Blocks n (md5Compress h (bs.take 64)) (bs.drop 64)

/-- A running MD5 (`hashlib.md5()` object): chaining state, buffered
not-yet-compressed tail (< 64 bytes for reachable states), total byte count. -/
structure MD5Ctx where
  h : Nat × Nat × Nat × Nat
  buf : List Nat
  len : Nat
deriving DecidableEq

/-- `hashlib.md5()`. -/
def md5Init : MD5Ctx :=
  ⟨(0x67452301, 0xefcdab89, 0x98badcfe, 0x10325476), [], 0⟩

/-- `md5.update(input)`: append to the buffer, compress every complete
64-byte block, keep the remainder buffered. -/
def md5Update (c : MD5Ctx) (input : List Nat) : MD5Ctx :=
  let all := c.buf ++ input
  let nb := all.length / 64
  { h := md5Blocks nb c.h all
    buf := all.drop (64 * nb)
    len := c.len + input.length }

/-- Lowercase hex digit table lookup. -/
def hexDigit (k : Nat) : Char := ("0123456789abcdef").data.getD (k % 16) '0'

/-- Two lowercase hex digits of one byte. -/
def byteHex (b : Nat) : List Char := [hexDigit (b / 16 % 16), hexDigit (b % 16)]

/-- Hex of a 32-bit word, least significant byte first (MD5 output order). -/
def wordHexLE (w : Nat) : List Char :=
  byteHex (w % 256) ++ byteHex (w / 256 % 256) ++
    byteHex (w / 65536 % 256) ++ byteHex (w / 16777216 % 256)

/-- `md5.hexdigest()`: pad (0x80, zeros, 64-bit little-endian bit length),
compress the final block(s), and print the state little-endian in lowercase
hex. -/
def md5Final (c : MD5Ctx) : String :=
  let padZeros := (119 - c.len % 64) % 64
  let bitLen := (8 * c.len) % 18446744073709551616
  let lenBytes := (List.range 8).map (fun i => bitLen >>> (8 * i) % 256)
  let msg := c.buf ++ [128] ++ List.replicate padZeros 0 ++ lenBytes
  match md5Blocks (msg.length / 64) c.h msg with
  | (a, b, c, d) => ⟨wordHexLE a ++ wordHexLE b ++ wordHexLE c ++ wordHexLE d⟩

/-- `hashlib.md5(bs).hexdigest()`: one-shot hash of a whole byte sequence. -/
def md5HexBytes (bs : List Nat) : String := md5Final (md5Update md5Init bs)

/- ## The probe: `fetch_status_md5_bytes` -/

/-- How reading a response body in 128 KiB chunks went: either the chunk
sequence was read to exhaustion, or a read raised mid-stream after some
chunks. -/
inductive ReadOutcome where
  | ok (chunks : List (List Nat))
  | fail (chunksBefore : List (List Nat))
deriving DecidableEq

/-- Which transport-level exception `opener.open` raised when no response was
obtained at all. -/
inductive TransportErr where
  | url
  | timeoutE
  | other
deriving DecidableEq

/-- Abstraction of one probe's network interaction: a response with a status
and a body read, an `HTTPError` carrying a status and a readable (or failing)
error body, or a transport failure with no response. -/
inductive FetchOutcome where
  | success (status : Nat) (body : ReadOutcome)
  | httpError (status : Nat) (body : ReadOutcome)
  | transport (e : TransportErr)
deriving DecidableEq

/-- Python exceptions that can escape the `try` body of
`fetch_status_md5_bytes`. -/
inductive PyExc where
  | httpError (status : Nat) (body : ReadOutcome)
  | urlError
  | timeoutErr
  | readError
  | otherExc
deriving DecidableEq

/-- Exception classes named by the source's `except` clauses. -/
inductive ExcClass where
  | httpErrorC
  | urlErrorC
  | timeoutC
  | exceptionC
deriving DecidableEq, BEq

/-- The (most specific modelled) class of an exception value. -/
def classOf : PyExc → ExcClass
  | .httpError _ _ => .httpErrorC
  | .urlError => .urlErrorC
  | .timeoutErr => .timeoutC
  | .readError => .exceptionC
  | .otherExc => .exceptionC

/-- Python's exception class hierarchy, restricted to the classes above:
everything derives from `Exception`, and `HTTPError` derives from
`URLError`. -/
def isSubclassOf : ExcClass → ExcClass → Bool
  | _, .exceptionC => true
  | .httpErrorC, .urlErrorC => true
  | a, b => a == b

/-- Does an `except (C₁, …, Cₙ)` clause catch exception `e`? -/
def excMatches (clause : List ExcClass) (e : PyExc) : Bool :=
  clause.any (fun c => isSubclassOf (classOf e) c)

/-- Run a `try` body against an ordered list of `except` clauses: the first
clause whose class tuple covers the raised exception handles it; an uncaught
exception propagates. -/
def runExcept (body : Except PyExc (Nat × String × Nat))
    (clauses : List (List ExcClass × (PyExc → Nat × String × Nat))) :
    Except PyExc (Nat × String × Nat) :=
  match body with
  | .ok r => .ok r
  | .error e =>
    match clauses.find? (fun cl => excMatches cl.1 e) with
    | some cl => .ok (cl.2 e)
    | none => .error e

/-- Total bytes across chunks (`total += len(chunk)`). -/
def chunksLen (chunks : List (List Nat)) : Nat := (chunks.map List.length).sum

/-- The `try` body (source lines 76-85): open, read the status, stream the
body through the running MD5.  A mid-stream read failure, an `HTTPError` and
a transport failure all raise. -/
def openAndRead : FetchOutcome → Except PyExc (Nat × String × Nat)
  | .success s (.ok chunks) =>
    .ok (s, md5Final (chunks.foldl md5Update md5Init), chunksLen chunks)
  | .success _ (.fail _) => .error .readError
  | .httpError s b => .error (.httpError s b)
  | .transport .url => .error .urlError
  | .transport .timeoutE => .error .timeoutErr
  | .transport .other => .error .otherExc

/-- The `except HTTPError` handler (source lines 87-99): best-effort drain and
hash the error body; on zero bytes report `md5(b"")`; if the drain itself
raises, fall back to `(status, "-", 0)`. -/
def handleHTTP (s : Nat) (b : ReadOutcome) : Nat × String × Nat :=
  match b with
  | .ok chunks =>
    let total := chunksLen chunks
    (s, if 0 < total then md5Final (chunks.foldl md5Update md5Init) else md5HexBytes [],
      total)
  | .fail _ => (s, "-", 0)

/-- `fetch_status_md5_bytes` (source lines 69-102) as an `Except` value:
`.ok` is a normal return, `.error` would be an exception escaping to the
caller (proved never to happen).  The two `except` clauses are the source's
`except HTTPError` and `except (URLError, TimeoutError, Exception)`. -/
def fetch_status_md5_bytes (o : FetchOutcome) : Except PyExc (Nat × String × Nat) :=
  runExcept (openAndRead o)
    [([ExcClass.httpErrorC],
       fun e => match e with
        | .httpError s b => handleHTTP s b
        | _ => (0, "-", 0)),
     ([ExcClass.urlErrorC, ExcClass.timeoutC, ExcClass.exceptionC],
       fun _ => (0, "-", 0))]

/- ## The scan driver: `main` -/

/-- The probe URL built for one version (source line 141). -/
def jsUrl (base ver : String) : String :=
  base ++ "/static/dist/admin/AdminInterface-" ++ ver ++ ".js"

/-- One emitted TSV row (source lines 156 and 160). -/
structure OutRec where
  ver : String
  status : Nat
  md5 : String
  nbytes : Nat
  url : String
deriving DecidableEq

/-- The row `main` would print for a version, given the probe results as a
function of the URL. -/
def recOf (base : String) (probe : String → Nat × String × Nat) (ver : String) : OutRec :=
  let url := jsUrl base ver
  let r := probe url
  ⟨ver, r.1, r.2.1, r.2.2, url⟩

/-- The version loop of `main` (source lines 139-174): 404 filtering,
enumerate-all vs find-first emission, early exit on 200 in find-first mode,
and the final exit code (3 for find-first without a hit, 0 otherwise).
Returns (emitted records, exit code).  The write-only `hits` counter, the
verbose stderr logging and the sleep are omitted (they affect neither). -/
def scanLoop (allF inc : Bool) (base : String) (probe : String → Nat × String × Nat) :
    List String → List OutRec × Nat
  | [] => ([], if allF then 0 else 3)
  | ver :: rest =>
    let r := recOf base probe ver
    if r.status == 404 && !inc then scanLoop allF inc base probe rest
    else if allF then
      let t := scanLoop allF inc base probe rest
      (r :: t.1, t.2)
    else if r.status == 200 then ([r], 0)
    else scanLoop allF inc base probe rest

/-- The base URL `main` settles on (source lines 119-122): the `--base-url`
argument (`None` for absent) stripped; if empty, the interactive prompt's
answer stripped; then `rstrip("/")`. -/
def mainBase (baseArg : Option String) (promptVal : String) : String :=
  let b0 := pyStrip (baseArg.getD (""))
  let b1 := if b0 = "" then pyStrip promptVal else b0
  rstripSlashes b1

/-- `main` (source lines 105-174) reduced to its exit code: 2 for a missing
base URL (checked before any network access — the result does not look at
`fetched`), 1 when release retrieval raised, otherwise the scan loop's code.
`fetched` abstracts the `github_fetch_release_tags` call: `.error` is a raised
exception, `.ok` the version list. -/
def main_model (baseArg : Option String) (promptVal : String)
    (fetched : Except String (List String)) (allF inc : Bool)
    (probe : String → Nat × String × Nat) : Nat :=
  if mainBase baseArg promptVal = "" then 2
  else
    match fetched with
    | .error _ => 1
    | .ok versions => (scanLoop allF inc (mainBase baseArg promptVal) probe versions).2

/- ## Lemmas about `startsWith`, `subAnchoredLit` and `pyStripList` -/

theorem startsWith_append (p t : List Char) : startsWith p (p ++ t) = true := by
  induction p with
  | nil => rfl
  | cons a ps ih => simp [startsWith, ih]

theorem exists_of_startsWith {p l : List Char} (h : startsWith p l = true) :
    ∃ t, l = p ++ t := by
  induction p generalizing l with
  | nil => exact ⟨l, rfl⟩
  | cons a ps ih =>
    cases l with
    | nil => cases h
    | cons c cs =>
      rw [startsWith, Bool.and_eq_true] at h
      obtain ⟨t, rfl⟩ := ih h.2
      obtain rfl : a = c := by simpa using h.1
      exact ⟨t, rfl⟩

theorem head?_of_startsWith {a : Char} {p l : List Char}
    (h : startsWith (a :: p) l = true) : l.head? = some a := by
  obtain ⟨t, rfl⟩ := exists_of_startsWith h
  rfl

theorem subAnchoredLit_pos {p l : List Char} (h : startsWith p l = true) :
    p ++ subAnchoredLit p l = l := by
  obtain ⟨t, rfl⟩ := exists_of_startsWith h
  rw [subAnchoredLit, if_pos h, List.drop_left]

theorem subAnchoredLit_neg {p l : List Char} (h : startsWith p l = false) :
    subAnchoredLit p l = l := by
  rw [subAnchoredLit, if_neg]
  simp [h]

theorem head?_dropWhile {α : Type} (p : α → Bool) (l : List α) :
    ∀ c, (l.dropWhile p).head? = some c → p c = false := by
  induction l with
  | nil => intro c h; cases h
  | cons a l ih =>
    intro c h
    rw [List.dropWhile_cons] at h
    by_cases ha : p a = true
    · rw [if_pos ha] at h
      exact ih c h
    · rw [if_neg ha] at h
      cases h
      simpa using ha

theorem dropWhile_eq_self_of_head {α : Type} (p : α → Bool) (l : List α)
    (h : ∀ c, l.head? = some c → p c = false) : l.dropWhile p = l := by
  cases l with
  | nil => rfl
  | cons a l => rw [List.dropWhile_cons, if_neg (by simp [h a rfl])]

theorem getLast?_pyStripList (l : List Char) :
    ∀ c, (pyStripList l).getLast? = some c → pyIsSpace c = false := by
  intro c h
  rw [pyStripList, List.getLast?_reverse] at h
  exact head?_dropWhile _ _ c h

theorem drop_getLast? {α : Type} (l : List α) (n : Nat) :
    l.drop n = [] ∨ (l.drop n).getLast? = l.getLast? := by
  induction l generalizing n with
  | nil => left; simp
  | cons a l ih =>
    cases n with
    | zero => right; rfl
    | succ n =>
      simp only [List.drop_succ_cons]
      cases hl : l.drop n with
      | nil => left; rfl
      | cons x xs =>
        rcases ih n with h | h
        · rw [h] at hl; cases hl
        · right
          rw [← hl, h]
          cases l with
          | nil => simp at hl
          | cons b bs => exact List.getLast?_cons_cons.symm

theorem subAnchoredLit_getLast? {p l : List Char} {P : Char → Prop}
    (h : ∀ c, l.getLast? = some c → P c) :
    ∀ c, (subAnchoredLit p l).getLast? = some c → P c := by
  intro c hc
  rw [subAnchoredLit] at hc
  by_cases hs : startsWith p l = true
  · rw [if_pos hs] at hc
    rcases drop_getLast? l p.length with hd | hd
    · rw [hd] at hc; cases hc
    · rw [hd] at hc; exact h c hc
  · rw [if_neg hs] at hc
    exact h c hc

theorem pyStripList_eq_self {l : List Char}
    (h1 : ∀ c, l.head? = some c → pyIsSpace c = false)
    (h2 : ∀ c, l.getLast? = some c → pyIsSpace c = false) : pyStripList l = l := by
  rw [pyStripList, dropWhile_eq_self_of_head _ _ h1,
    dropWhile_eq_self_of_head _ _ (fun c hc => h2 c (by rwa [List.head?_reverse] at hc)),
    List.reverse_reverse]

/-- The trailing end of a normalized tag is never whitespace (it is a suffix
of the stripped raw tag). -/
theorem normalize_tag_getLast? (s : String) :
    ∀ c, (normalize_tag s).data.getLast? = some c → pyIsSpace c = false := by
  intro c hc
  exact subAnchoredLit_getLast?
    (subAnchoredLit_getLast? (fun d hd => getLast?_pyStripList s.data d hd)) c hc

theorem startsWith_false_of_head {a : Char} {p l : List Char}
    (h : ∀ c, l.head? = some c → c ≠ a) : startsWith (a :: p) l = false := by
  cases hs : startsWith (a :: p) l
  · rfl
  · exact absurd rfl (h a (head?_of_startsWith hs))

/-- The data-level unfolding of `normalize_tag`. -/
theorem normalize_tag_data (s : String) :
    (normalize_tag s).data
      = subAnchoredLit ['v'] (subAnchoredLit ("version/").data (pyStripList s.data)) := rfl

/-- Claim C1, counterexample: normalization is not idempotent on the code;
`normalize_tag "vv1" = "v1"` but a second pass strips the surviving `v`. -/
theorem c1_normalize_not_idempotent :
    ¬ (normalize_tag (normalize_tag ("vv1")) = normalize_tag ("vv1")) := by decide

/-- Claim C1, amended: normalization is idempotent on every input whose
normalized value does not start with `'v'` and does not start with a
whitespace character (the counterexample shows the restriction is needed:
`normalize_tag "vv1" = "v1"` starts with `'v'` and is normalized further). -/
theorem c1_normalize_idempotent_amended (s : String)
    (h : tagHeadSafe (normalize_tag s) = true) :
    normalize_tag (normalize_tag s) = normalize_tag s := by
  have hhead : ∀ c, (normalize_tag s).data.head? = some c →
      pyIsSpace c = false ∧ (c == 'v') = false := by
    intro c hc
    rw [tagHeadSafe] at h
    rcases hd : (normalize_tag s).data with _ | ⟨c', cs⟩
    · rw [hd] at hc; cases hc
    · rw [hd] at hc h
      cases hc
      simpa [Bool.and_eq_true] using h
  have hstrip : pyStripList (normalize_tag s).data = (normalize_tag s).data :=
    pyStripList_eq_self
      (fun c hc => (hhead c hc).1)
      (fun c hc => normalize_tag_getLast? s c hc)
  have hv : ∀ c, (normalize_tag s).data.head? = some c → c ≠ 'v' := by
    intro c hc
    have := (hhead c hc).2
    simpa using this
  have hver : startsWith (("version/").data) (normalize_tag s).data = false :=
    startsWith_false_of_head hv
  have hv1 : startsWith ['v'] (normalize_tag s).data = false :=
    startsWith_false_of_head hv
  show (⟨subAnchoredLit ['v']
      (subAnchoredLit ("version/").data (pyStripList (normalize_tag s).data))⟩ : String)
    = normalize_tag s
  rw [hstrip, subAnchoredLit_neg hver, subAnchoredLit_neg hv1]

/-- Witness for the amended C1 at a concrete input. -/
theorem c1_normalize_idempotent_amended_witness :
    tagHeadSafe (normalize_tag ("version/v1.2.3")) = true
      ∧ normalize_tag (normalize_tag ("version/v1.2.3")) = normalize_tag ("version/v1.2.3") :=
  ⟨by decide, c1_normalize_idempotent_amended ("version/v1.2.3") (by decide)⟩

/-- Claim C7: normalization trims surrounding whitespace, strips at most one
leading `version/`, then at most one leading `v`, and nothing else: the
normalized value is always the stripped input minus one of the four possible
dropped leads `""`, `"v"`, `"version/"`, `"version/v"`; the spec's concrete
examples hold; empty or all-whitespace input normalizes to `""`. -/
theorem c7_normalize_steps :
    normalize_tag ("version/v1.2.3") = "1.2.3"
    ∧ normalize_tag ("v1.2.3") = "1.2.3"
    ∧ normalize_tag ("1.2.3") = "1.2.3"
    ∧ normalize_tag ("  v2.0  ") = "2.0"
    ∧ normalize_tag ("") = ""
    ∧ (∀ s : String, (∀ c ∈ s.data, pyIsSpace c = true) → normalize_tag s = "")
    ∧ (∀ s : String, ∃ p : List Char,
        (p = [] ∨ p = ['v'] ∨ p = ("version/").data ∨ p = ("version/v").data)
        ∧ (pyStrip s).data = p ++ (normalize_tag s).data) := by
  refine ⟨by decide, by decide, by decide, by decide, by decide, ?_, ?_⟩
  · intro s hs
    have hnil : pyStripList s.data = [] := by
      rw [pyStripList]
      have h1 : s.data.dropWhile pyIsSpace = [] :=
        List.dropWhile_eq_nil_iff.mpr (fun x hx => hs x hx)
      rw [h1]
      rfl
    show (⟨subAnchoredLit ['v'] (subAnchoredLit ("version/").data (pyStripList s.data))⟩
        : String) = ""
    rw [hnil]
    rfl
  · intro s
    cases h1 : startsWith (("version/").data) (pyStripList s.data)
    · cases h2 : startsWith ['v'] (pyStripList s.data)
      · refine ⟨[], Or.inl rfl, ?_⟩
        show pyStripList s.data = [] ++ (normalize_tag s).data
        rw [normalize_tag_data, subAnchoredLit_neg h1, subAnchoredLit_neg h2,
          List.nil_append]
      · refine ⟨['v'], Or.inr (Or.inl rfl), ?_⟩
        show pyStripList s.data = ['v'] ++ (normalize_tag s).data
        rw [normalize_tag_data, subAnchoredLit_neg h1]
        exact (subAnchoredLit_pos h2).symm
    · have e1 : ("version/").data ++ subAnchoredLit ("version/").data (pyStripList s.data)
          = pyStripList s.data := subAnchoredLit_pos h1
      cases h2 : startsWith ['v'] (subAnchoredLit ("version/").data (pyStripList s.data))
      · refine ⟨("version/").data, Or.inr (Or.inr (Or.inl rfl)), ?_⟩
        show pyStripList s.data = ("version/").data ++ (normalize_tag s).data
        rw [normalize_tag_data, subAnchoredLit_neg h2]
        exact e1.symm
      · refine ⟨("version/v").data, Or.inr (Or.inr (Or.inr rfl)), ?_⟩
        show pyStripList s.data = ("version/v").data ++ (normalize_tag s).data
        have e2 : ['v'] ++ subAnchoredLit ['v']
            (subAnchoredLit ("version/").data (pyStripList s.data))
            = subAnchoredLit ("version/").data (pyStripList s.data) :=
          subAnchoredLit_pos h2
        have e3 : ("version/v").data = ("version/").data ++ ['v'] := rfl
        rw [e3, List.append_assoc, normalize_tag_data, e2, e1]

/-- Witness for C7's quantified conjuncts at concrete inputs. -/
theorem c7_normalize_steps_witness :
    normalize_tag ("   ") = ""
      ∧ (pyStrip ("version/v9")).data = ("version/v").data ++ (normalize_tag ("version/v9")).data := by
  constructor
  · exact c7_normalize_steps.2.2.2.2.2.1 ("   ") (by decide)
  · obtain ⟨p, hp, he⟩ := c7_normalize_steps.2.2.2.2.2.2 ("version/v9")
    have : p = ("version/v").data := by
      rcases hp with h | h | h | h
      · rw [h] at he; exact absurd he (by decide)
      · rw [h] at he; exact absurd he (by decide)
      · rw [h] at he; exact absurd he (by decide)
      · exact h
    rw [this] at he
    exact he

/- ## Lemmas about `parse_link_header` and the pagination loop -/

theorem lookup_mem {l : List (String × String)} {k v : String}
    (h : l.lookup k = some v) : (k, v) ∈ l := by
  induction l with
  | nil => cases h
  | cons kv l ih =>
    obtain ⟨k', v'⟩ := kv
    rw [List.lookup] at h
    cases hk : (k == k') with
    | true =>
      rw [hk] at h
      cases h
      have : k = k' := by simpa using hk
      subst this
      exact List.mem_cons_self _ _
    | false =>
      rw [hk] at h
      exact List.mem_cons_of_mem _ (ih h)

theorem matchLinkRe_url_ne {p u r : List Char} (h : matchLinkRe p = some (u, r)) :
    u ≠ [] := by
  simp only [matchLinkRe] at h
  repeat' split at h
  all_goals cases h
  rename_i hguard
  intro hnil
  exact hguard (by rw [hnil]; rfl)

theorem parse_link_header_vals (link : String) :
    ∀ kv ∈ parse_link_header link, kv.2 ≠ "" := by
  rw [parse_link_header]
  have main : ∀ (parts : List (List Char)) (acc : List (String × String)),
      (∀ kv ∈ acc, kv.2 ≠ "") →
      ∀ kv ∈ parts.foldl
        (fun d part =>
          match matchLinkRe (pyStripList part) with
          | some (url, rel) => (⟨rel⟩, ⟨url⟩) :: d
          | none => d) acc, kv.2 ≠ "" := by
    intro parts
    induction parts with
    | nil => intro acc hacc; exact hacc
    | cons part parts ih =>
      intro acc hacc
      rw [List.foldl_cons]
      cases hm : matchLinkRe (pyStripList part) with
      | none => exact ih acc hacc
      | some ur =>
        obtain ⟨url, rel⟩ := ur
        refine ih _ ?_
        intro kv hkv
        rcases List.mem_cons.mp hkv with h | h
        · subst h
          have hne : url ≠ [] := matchLinkRe_url_ne hm
          simpa [String.ext_iff] using hne
        · exact hacc kv h
  exact main _ [] (by intro kv hkv; cases hkv)

theorem nextUrl_of_lookup {link u : String}
    (h : (parse_link_header link).lookup ("next") = some u) : u ≠ "" :=
  parse_link_header_vals link _ (lookup_mem h)

theorem github_loop_empty_url (env : String → List (Option String) × String)
    (fuel : Nat) (st : List String × List String) :
    github_fetch_release_tags env fuel ("") st = st := by
  cases fuel with
  | zero => rfl
  | succ f => rw [github_fetch_release_tags, if_pos rfl]

/-- Claim C6: the `Link` metadata is parsed into a `rel ↦ url` mapping
(concrete example first); every URL stored under `"next"` is a nonempty
string, so the `while url:` guard is equivalent to the presence of a
`"next"` entry; and one iteration of the pagination loop continues at the
mapped URL exactly when the entry is present, stopping otherwise. -/
theorem c6_pagination_continuation :
    ((parse_link_header
        ("<https://api.example/p2>; rel=\"next\", <https://api.example/p9>; rel=\"last\"")).lookup
        ("next") = some ("https://api.example/p2"))
    ∧ (∀ link u, (parse_link_header link).lookup ("next") = some u → u ≠ "")
    ∧ (∀ (env : String → List (Option String) × String) (fuel : Nat) (url : String)
        (st : List String × List String), url ≠ "" →
        github_fetch_release_tags env (fuel + 1) url st =
          match (parse_link_header (env url).2).lookup ("next") with
          | some nxt => github_fetch_release_tags env fuel nxt (ghPage st (env url).1)
          | none => ghPage st (env url).1) := by
  refine ⟨by decide, fun link u h => nextUrl_of_lookup h, ?_⟩
  intro env fuel url st hurl
  rw [github_fetch_release_tags, if_neg hurl]
  cases hl : (parse_link_header (env url).2).lookup ("next") with
  | some nxt =>
    rw [nextPageUrl, hl]
    rfl
  | none =>
    rw [nextPageUrl, hl]
    exact github_loop_empty_url env fuel _

/-- Witness for C6's quantified conjuncts at concrete inputs. -/
theorem c6_pagination_continuation_witness :
    (("https://api.example/p2" : String) ≠ "")
    ∧ github_fetch_release_tags (fun _ => ([], "")) 1 ("start") ([], [])
        = ghPage ([], []) [] := by
  constructor
  · exact c6_pagination_continuation.2.1
      ("<https://api.example/p2>; rel=\"next\", <https://api.example/p9>; rel=\"last\"")
      ("https://api.example/p2") (by decide)
  · have h := c6_pagination_continuation.2.2 (fun _ => ([], "")) 0 ("start") ([], [])
      (by decide)
    rw [h]
    decide

/- ## Lemmas about the release-tag dedup -/

theorem dedupFirstAux_congr (l : List String) :
    ∀ s1 s2 : List String, (∀ x, x ∈ s1 ↔ x ∈ s2) →
      dedupFirstAux s1 l = dedupFirstAux s2 l := by
  induction l with
  | nil => intro s1 s2 h; rfl
  | cons t ts ih =>
    intro s1 s2 h
    by_cases ht : t ∈ s1
    · rw [dedupFirstAux, if_pos ht, dedupFirstAux, if_pos ((h t).mp ht)]
      exact ih s1 s2 h
    · rw [dedupFirstAux, if_neg ht, dedupFirstAux, if_neg (fun hx => ht ((h t).mpr hx))]
      refine congrArg _ (ih _ _ ?_)
      intro x
      simp only [List.mem_cons]
      exact or_congr Iff.rfl (h x)

theorem dedupFirstAux_nodup (l : List String) :
    ∀ seen : List String,
      (dedupFirstAux seen l).Nodup ∧ ∀ x ∈ dedupFirstAux seen l, x ∉ seen := by
  induction l with
  | nil => intro seen; exact ⟨List.nodup_nil, by intro x hx; cases hx⟩
  | cons t ts ih =>
    intro seen
    by_cases ht : t ∈ seen
    · rw [dedupFirstAux, if_pos ht]
      exact ih seen
    · rw [dedupFirstAux, if_neg ht]
      obtain ⟨hnd, havoid⟩ := ih (t :: seen)
      refine ⟨List.nodup_cons.mpr ⟨?_, hnd⟩, ?_⟩
      · intro hmem
        exact havoid t hmem (List.mem_cons_self _ _)
      · intro x hx
        rcases List.mem_cons.mp hx with h | h
        · subst h; exact ht
        · intro hxs
          exact havoid x h (List.mem_cons_of_mem _ hxs)

/-- The tag-accumulation fold, characterized: starting from any state whose
`seen` set has the same members as its `versions` list, the fold appends
exactly the keep-first dedup (relative to the already-collected versions) of
the nonempty normalized tags, and preserves the `seen`/`versions` agreement. -/
theorem ghAdd_foldl_char (raws : List String) :
    ∀ vs seen : List String, (∀ x, x ∈ seen ↔ x ∈ vs) →
      (raws.foldl ghAdd (vs, seen)).1
          = vs ++ dedupFirstAux vs ((raws.map normalize_tag).filter nonEmptyStr)
        ∧ ∀ x, x ∈ (raws.foldl ghAdd (vs, seen)).2 ↔ x ∈ (raws.foldl ghAdd (vs, seen)).1 := by
  induction raws with
  | nil =>
    intro vs seen h
    exact ⟨by simp [dedupFirstAux], h⟩
  | cons raw raws ih =>
    intro vs seen h
    rw [List.foldl_cons, List.map_cons, List.filter_cons]
    by_cases h0 : normalize_tag raw = ""
    · have hp : nonEmptyStr (normalize_tag raw) = false := by
        simp [nonEmptyStr, h0]
      rw [hp, if_neg Bool.false_ne_true]
      have e : ghAdd (vs, seen) raw = (vs, seen) := by
        rw [ghAdd]
        exact if_pos (Or.inl h0)
      rw [e]
      exact ih vs seen h
    · have hp : nonEmptyStr (normalize_tag raw) = true := by
        simp [nonEmptyStr, h0]
      rw [hp, if_pos rfl]
      by_cases hm : normalize_tag raw ∈ seen
      · have hmv : normalize_tag raw ∈ vs := (h _).mp hm
        have e : ghAdd (vs, seen) raw = (vs, seen) := by
          rw [ghAdd]
          exact if_pos (Or.inr hm)
        rw [e, dedupFirstAux, if_pos hmv]
        exact ih vs seen h
      · have hmv : normalize_tag raw ∉ vs := fun hv => hm ((h _).mpr hv)
        have e : ghAdd (vs, seen) raw = (vs ++ [normalize_tag raw], normalize_tag raw :: seen) := by
          rw [ghAdd]
          exact if_neg (by push_neg; exact ⟨h0, hm⟩)
        rw [e, dedupFirstAux, if_neg hmv]
        have hinv : ∀ x, x ∈ (normalize_tag raw :: seen) ↔ x ∈ vs ++ [normalize_tag raw] := by
          intro x
          simp only [List.mem_cons, List.mem_append, List.mem_singleton, List.not_mem_nil,
            or_false, h x]
          exact Or.comm
        obtain ⟨e1, e2⟩ := ih (vs ++ [normalize_tag raw]) (normalize_tag raw :: seen) hinv
        refine ⟨?_, e2⟩
        rw [e1, dedupFirstAux_congr _ (vs ++ [normalize_tag raw]) (normalize_tag raw :: vs)
          (by intro x; simp [List.mem_append, Or.comm])]
        simp [List.append_assoc]

theorem ghPage_as_foldl (st : List String × List String) (body : List (Option String)) :
    ghPage st body = ((body.map (fun o => o.getD (""))).foldl ghAdd st) := by
  rw [ghPage, List.foldl_map]

theorem github_loop_as_foldl (env : String → List (Option String) × String) :
    ∀ (fuel : Nat) (url : String) (st : List String × List String),
      github_fetch_release_tags env fuel url st = (ghRaws env fuel url).foldl ghAdd st := by
  intro fuel
  induction fuel with
  | zero => intro url st; rfl
  | succ f ih =>
    intro url st
    by_cases hu : url = ""
    · rw [github_fetch_release_tags, if_pos hu, ghRaws, if_pos hu]
      rfl
    · rw [github_fetch_release_tags, if_neg hu, ghRaws, if_neg hu,
        List.foldl_append, ih, ghPage_as_foldl]

/-- Claim C5: the collected version list is the keep-first dedup of the
normalized nonempty tags in upstream (page-after-page, first-seen) order; it
never contains duplicates; and the spec's example — raw tags
`["v1.0", "version/1.0"]` — collapses to exactly `["1.0"]`. -/
theorem c5_dedup_normalized :
    ∀ (env : String → List (Option String) × String) (fuel : Nat) (url : String),
      (github_fetch_release_tags env fuel url ([], [])).1
          = dedupFirst (((ghRaws env fuel url).map normalize_tag).filter nonEmptyStr)
        ∧ ((github_fetch_release_tags env fuel url ([], [])).1).Nodup
        ∧ (github_fetch_release_tags
            (fun _ => ([some ("v1.0"), some ("version/1.0")], "")) 1 ("go") ([], [])).1
          = ["1.0"] := by
  intro env fuel url
  have hchar := ghAdd_foldl_char (ghRaws env fuel url) [] []
    (by intro x; exact Iff.rfl)
  have he : (github_fetch_release_tags env fuel url ([], [])).1
      = dedupFirst (((ghRaws env fuel url).map normalize_tag).filter nonEmptyStr) := by
    rw [github_loop_as_foldl, hchar.1, dedupFirst]
    rfl
  refine ⟨he, ?_, by decide⟩
  rw [he, dedupFirst]
  exact (dedupFirstAux_nodup _ []).1

/- ## Lemmas about the scan loop -/

/-- Enumerate-all mode characterized: emit every probed record that passes
the 404 filter, in version-list order, and finish with exit code 0. -/
theorem scanLoop_enumerate_all (inc : Bool) (base : String)
    (probe : String → Nat × String × Nat) :
    ∀ vers : List String,
      scanLoop true inc base probe vers
        = ((vers.map (recOf base probe)).filter (fun r => !(r.status == 404 && !inc)), 0) := by
  intro vers
  induction vers with
  | nil => rfl
  | cons v rest ih =>
    rw [scanLoop, List.map_cons, List.filter_cons]
    cases h : ((recOf base probe v).status == 404 && !inc) <;> (rw [ih]; rfl)

/-- Find-first mode characterized: the emitted output is exactly the first
record with status 200 (if any), the scan then stops with exit code 0;
with no 200 anywhere the output is empty and the exit code is 3. -/
theorem scanLoop_find_first (inc : Bool) (base : String)
    (probe : String → Nat × String × Nat) :
    ∀ vers : List String,
      scanLoop false inc base probe vers
        = (match (vers.map (recOf base probe)).find? (fun r => r.status == 200) with
           | some r => ([r], 0)
           | none => ([], 3)) := by
  intro vers
  induction vers with
  | nil => rfl
  | cons v rest ih =>
    rw [scanLoop, List.map_cons]
    cases h404 : ((recOf base probe v).status == 404 && !inc) with
    | true =>
      have h4 : (recOf base probe v).status = 404 := by
        have hb := (Bool.and_eq_true _ _).mp h404
        simpa using hb.1
      have h200 : ((recOf base probe v).status == 200) = false := by
        rw [h4]; rfl
      rw [List.find?_cons_of_neg _ (by simp [h200]), ih]
      rfl
    | false =>
      cases h200 : ((recOf base probe v).status == 200) with
      | true =>
        rw [List.find?_cons_of_pos _ (by simp [h200])]
        rfl
      | false =>
        rw [List.find?_cons_of_neg _ (by simp [h200]), ih]
        rfl

/-- Claim C2: the per-version scan policy.  In enumerate-all mode the loop
emits exactly the records passing the 404/`includeNotFound` filter and exits
0; in find-first mode it emits exactly the first status-200 record — exiting
0 on the spot — and nothing else, with every non-200 (404 included) silently
skipped and the scan continuing, ending in exit code 3 if no 200 exists. -/
theorem c2_scan_policy (inc : Bool) (base : String)
    (probe : String → Nat × String × Nat) (vers : List String) :
    scanLoop true inc base probe vers
        = ((vers.map (recOf base probe)).filter (fun r => !(r.status == 404 && !inc)), 0)
      ∧ scanLoop false inc base probe vers
        = (match (vers.map (recOf base probe)).find? (fun r => r.status == 200) with
           | some r => ([r], 0)
           | none => ([], 3)) :=
  ⟨scanLoop_enumerate_all inc base probe vers, scanLoop_find_first inc base probe vers⟩

/-- Claim C10: in find-first mode the `--include-404` flag changes nothing:
emitted records and exit code coincide for both flag values, over every
version list and every probe behavior. -/
theorem c10_include404_no_effect_find_first (base : String)
    (probe : String → Nat × String × Nat) (vers : List String) :
    scanLoop false true base probe vers = scanLoop false false base probe vers := by
  rw [scanLoop_find_first, scanLoop_find_first]

theorem main_model_no_base {baseArg : Option String} {promptVal : String}
    (fetched : Except String (List String)) (allF inc : Bool)
    (probe : String → Nat × String × Nat) (h : mainBase baseArg promptVal = "") :
    main_model baseArg promptVal fetched allF inc probe = 2 := by
  simp only [main_model]
  rw [if_pos h]

theorem main_model_fetch_failed {baseArg : Option String} {promptVal : String}
    (msg : String) (allF inc : Bool) (probe : String → Nat × String × Nat)
    (h : mainBase baseArg promptVal ≠ "") :
    main_model baseArg promptVal (.error msg) allF inc probe = 1 := by
  simp only [main_model]
  rw [if_neg h]

theorem main_model_fetch_ok {baseArg : Option String} {promptVal : String}
    (vers : List String) (allF inc : Bool) (probe : String → Nat × String × Nat)
    (h : mainBase baseArg promptVal ≠ "") :
    main_model baseArg promptVal (.ok vers) allF inc probe
      = (scanLoop allF inc (mainBase baseArg promptVal) probe vers).2 := by
  simp only [main_model]
  rw [if_neg h]

/-- Claim C3: the exit-code contract of `main`: 2 when no usable base URL
remains after stripping (for every fetch outcome and probe — no network is
consulted), 1 when release retrieval fails, 0 when enumerate-all completes,
0 when find-first hits a 200, and 3 when find-first never does. -/
theorem c3_exit_codes (baseArg : Option String) (promptVal : String)
    (fetched : Except String (List String)) (allF inc : Bool)
    (probe : String → Nat × String × Nat) :
    (mainBase baseArg promptVal = "" →
      main_model baseArg promptVal fetched allF inc probe = 2)
    ∧ (mainBase baseArg promptVal ≠ "" → ∀ msg : String,
        main_model baseArg promptVal (.error msg) allF inc probe = 1)
    ∧ (mainBase baseArg promptVal ≠ "" → ∀ vers : List String,
        main_model baseArg promptVal (.ok vers) true inc probe = 0)
    ∧ (mainBase baseArg promptVal ≠ "" → ∀ vers : List String,
        (∃ v ∈ vers, (recOf (mainBase baseArg promptVal) probe v).status = 200) →
        main_model baseArg promptVal (.ok vers) false inc probe = 0)
    ∧ (mainBase baseArg promptVal ≠ "" → ∀ vers : List String,
        (∀ v ∈ vers, (recOf (mainBase baseArg promptVal) probe v).status ≠ 200) →
        main_model baseArg promptVal (.ok vers) false inc probe = 3) := by
  refine ⟨?_, ?_, ?_, ?_, ?_⟩
  · intro h
    exact main_model_no_base fetched allF inc probe h
  · intro h msg
    exact main_model_fetch_failed msg allF inc probe h
  · intro h vers
    rw [main_model_fetch_ok vers true inc probe h, scanLoop_enumerate_all]
  · intro h vers hex
    rw [main_model_fetch_ok vers false inc probe h]
    obtain ⟨v, hv, h200⟩ := hex
    rw [scanLoop_find_first]
    cases hf : (vers.map (recOf (mainBase baseArg promptVal) probe)).find?
        (fun r => r.status == 200) with
    | some r => rfl
    | none =>
      exfalso
      have := List.find?_eq_none.mp hf (recOf (mainBase baseArg promptVal) probe v)
        (List.mem_map_of_mem _ hv)
      exact this (by simp [h200])
  · intro h vers hall
    rw [main_model_fetch_ok vers false inc probe h, scanLoop_find_first]
    rw [List.find?_eq_none.mpr ?_]
    intro r hr
    obtain ⟨v, hv, rfl⟩ := List.mem_map.mp hr
    simp [hall v hv]

/-- Witness for C3's conjuncts, one concrete scenario per exit code. -/
theorem c3_exit_codes_witness :
    main_model none ("") (.ok ["1"]) false false (fun _ => (200, "h", 1)) = 2
    ∧ main_model (some ("http://x")) ("") (.error ("boom")) false false
        (fun _ => (200, "h", 1)) = 1
    ∧ main_model (some ("http://x")) ("") (.ok ["1", "2"]) true false
        (fun _ => (500, "h", 1)) = 0
    ∧ main_model (some ("http://x")) ("") (.ok ["1"]) false false
        (fun _ => (200, "h", 1)) = 0
    ∧ main_model (some ("http://x")) ("") (.ok ["1"]) false false
        (fun _ => (503, "h", 1)) = 3 := by
  refine ⟨?_, ?_, ?_, ?_, ?_⟩
  · exact (c3_exit_codes none ("") (.ok ["1"]) false false (fun _ => (200, "h", 1))).1
      (by decide)
  · exact (c3_exit_codes (some ("http://x")) ("") (.error ("boom")) false false
      (fun _ => (200, "h", 1))).2.1 (by decide) ("boom")
  · exact (c3_exit_codes (some ("http://x")) ("") (.ok ["1", "2"]) true false
      (fun _ => (500, "h", 1))).2.2.1 (by decide) ["1", "2"]
  · exact (c3_exit_codes (some ("http://x")) ("") (.ok ["1"]) false false
      (fun _ => (200, "h", 1))).2.2.2.1 (by decide) ["1"]
      ⟨"1", by decide, rfl⟩
  · exact (c3_exit_codes (some ("http://x")) ("") (.ok ["1"]) false false
      (fun _ => (503, "h", 1))).2.2.2.2 (by decide) ["1"]
      (by intro v hv; rw [List.mem_singleton] at hv; subst hv; decide)

/- ## Lemmas about the chunked MD5 accumulation -/

/-- Bytes beyond the `64 * n` consumed by `n` compression steps are ignored. -/
theorem md5Blocks_append (n : Nat) :
    ∀ (h : Nat × Nat × Nat × Nat) (bs cs : List Nat), 64 * n ≤ bs.length →
      md5Blocks n h (bs ++ cs) = md5Blocks n h bs := by
  induction n with
  | zero => intro h bs cs _; rfl
  | succ n ih =>
    intro h bs cs hle
    have h64 : 64 ≤ bs.length := by
      have : 64 * 1 ≤ 64 * (n + 1) := Nat.mul_le_mul_left 64 (Nat.succ_le_succ (Nat.zero_le n))
      omega
    rw [md5Blocks, md5Blocks, List.take_append_eq_append_take,
      Nat.sub_eq_zero_of_le h64, List.take_zero, List.append_nil,
      List.drop_append_eq_append_drop, Nat.sub_eq_zero_of_le h64, List.drop_zero]
    refine ih _ _ _ ?_
    rw [List.length_drop]
    omega

/-- Compression steps compose: `n + m` steps are `n` steps followed by `m`
steps on the remaining bytes. -/
theorem md5Blocks_add (n : Nat) :
    ∀ (m : Nat) (h : Nat × Nat × Nat × Nat) (bs : List Nat),
      md5Blocks (n + m) h bs = md5Blocks m (md5Blocks n h bs) (bs.drop (64 * n)) := by
  induction n with
  | zero =>
    intro m h bs
    rw [Nat.zero_add, Nat.mul_zero, List.drop_zero]
    rfl
  | succ n ih =>
    intro m h bs
    have e : n + 1 + m = (n + m) + 1 := by omega
    rw [e, md5Blocks, md5Blocks, ih, List.drop_drop]
    have e2 : 64 + 64 * n = 64 * (n + 1) := by ring
    rw [e2]

/-- `md5.update` composes: updating twice is updating with the
concatenation.  This is the heart of chunk-boundary independence. -/
theorem md5Update_update (c : MD5Ctx) (a b : List Nat) :
    md5Update (md5Update c a) b = md5Update c (a ++ b) := by
  have hmod := Nat.div_add_mod (c.buf ++ a).length 64
  have hq : 64 * ((c.buf ++ a).length / 64) ≤ (c.buf ++ a).length := by omega
  have hlen : ((c.buf ++ a).drop (64 * ((c.buf ++ a).length / 64))).length
      = (c.buf ++ a).length % 64 := by
    rw [List.length_drop]
    omega
  have hassoc : c.buf ++ (a ++ b) = (c.buf ++ a) ++ b := (List.append_assoc _ _ _).symm
  have hdropappend : ((c.buf ++ a) ++ b).drop (64 * ((c.buf ++ a).length / 64))
      = (c.buf ++ a).drop (64 * ((c.buf ++ a).length / 64)) ++ b := by
    rw [List.drop_append_eq_append_drop, Nat.sub_eq_zero_of_le hq, List.drop_zero]
  have hN : (((c.buf ++ a) ++ b).length) / 64
      = (c.buf ++ a).length / 64
        + (((c.buf ++ a).drop (64 * ((c.buf ++ a).length / 64)) ++ b).length) / 64 := by
    have h1 : ((c.buf ++ a) ++ b).length = (c.buf ++ a).length + b.length :=
      List.length_append _ _
    have h2 : ((c.buf ++ a).drop (64 * ((c.buf ++ a).length / 64)) ++ b).length
        = (c.buf ++ a).length % 64 + b.length := by
      rw [List.length_append, hlen]
    rw [h1, h2]
    conv_lhs => rw [show (c.buf ++ a).length = 64 * ((c.buf ++ a).length / 64)
      + (c.buf ++ a).length % 64 from (Nat.div_add_mod _ 64).symm]
    rw [Nat.add_assoc, Nat.mul_add_div (by omega)]
  simp only [md5Update, MD5Ctx.mk.injEq]
  refine ⟨?_, ?_, ?_⟩
  · rw [hassoc, hN, md5Blocks_add, hdropappend, md5Blocks_append _ _ _ _ hq]
  · rw [hassoc, hN, Nat.mul_add, ← List.drop_drop, hdropappend]
  · rw [List.length_append, Nat.add_assoc]

/-- Folding `md5.update` over chunks, after a first update, equals one update
with everything concatenated. -/
theorem md5Update_foldl (chunks : List (List Nat)) :
    ∀ (c : MD5Ctx) (a : List Nat),
      chunks.foldl md5Update (md5Update c a) = md5Update c (a ++ chunks.flatten) := by
  induction chunks with
  | nil =>
    intro c a
    rw [List.foldl_nil, List.flatten_nil, List.append_nil]
  | cons x xs ih =>
    intro c a
    rw [List.foldl_cons, md5Update_update, ih, List.flatten_cons, List.append_assoc]

/-- A fresh context updated with nothing is unchanged. -/
theorem md5Update_init_nil : md5Update md5Init [] = md5Init := rfl

/-- Every character of a digest string is one of the sixteen lowercase hex
digits. -/
theorem md5Final_lowercase_hex (c : MD5Ctx) :
    ∀ ch ∈ (md5Final c).data, ch ∈ ("0123456789abcdef").data := by
  have hdigit : ∀ k : Nat, hexDigit k ∈ ("0123456789abcdef").data := by
    intro k
    rw [hexDigit]
    have hk : k % 16 < (("0123456789abcdef").data).length := by
      have := Nat.mod_lt k (show 0 < 16 by omega)
      simpa using this
    rw [List.getD_eq_getElem _ _ hk]
    exact List.getElem_mem _
  have hbyte : ∀ (b : Nat), ∀ ch ∈ byteHex b, ch ∈ ("0123456789abcdef").data := by
    intro b ch hch
    rcases List.mem_cons.mp hch with h | h
    · subst h; exact hdigit _
    · rcases List.mem_cons.mp h with h2 | h2
      · subst h2; exact hdigit _
      · cases h2
  have hword : ∀ (w : Nat), ∀ ch ∈ wordHexLE w, ch ∈ ("0123456789abcdef").data := by
    intro w ch hch
    rw [wordHexLE] at hch
    rcases List.mem_append.mp hch with h | h
    · rcases List.mem_append.mp h with h1 | h1
      · rcases List.mem_append.mp h1 with h2 | h2
        · exact hbyte _ ch h2
        · exact hbyte _ ch h2
      · exact hbyte _ ch h1
    · exact hbyte _ ch h
  intro ch hch
  rw [md5Final] at hch
  rcases hm : md5Blocks _ c.h _ with ⟨a, b, c', d⟩
  rw [hm] at hch
  rcases List.mem_append.mp hch with h | h
  · rcases List.mem_append.mp h with h1 | h1
    · rcases List.mem_append.mp h1 with h2 | h2
      · exact hword _ ch h2
      · exact hword _ ch h2
    · exact hword _ ch h1
  · exact hword _ ch h

/-- Claim C8: chunked digest accumulation is chunk-boundary independent — for
every partition of a byte sequence into chunks, feeding the chunks one by one
through the running MD5 yields the same digest (indeed the same final
context) as hashing the concatenation in one shot — and the digest is a
lowercase hex string. -/
theorem md5_chunks_one_shot (chunks : List (List Nat)) :
    md5Final (chunks.foldl md5Update md5Init) = md5HexBytes chunks.flatten := by
  rw [md5HexBytes]
  cases chunks with
  | nil => rw [List.foldl_nil, List.flatten_nil, md5Update_init_nil]
  | cons x xs =>
    rw [List.foldl_cons, md5Update_foldl, List.flatten_cons]

theorem c8_chunked_md5_eq_one_shot (chunks : List (List Nat)) :
    md5Final (chunks.foldl md5Update md5Init) = md5HexBytes chunks.flatten
      ∧ ∀ ch ∈ (md5Final (chunks.foldl md5Update md5Init)).data,
          ch ∈ ("0123456789abcdef").data :=
  ⟨md5_chunks_one_shot chunks, md5Final_lowercase_hex _⟩

/- ## Claims C4 and C9: the probe's error handling -/

theorem chunksLen_eq_flatten_length (chunks : List (List Nat)) :
    chunksLen chunks = chunks.flatten.length := by
  rw [chunksLen, List.length_flatten]

set_option maxRecDepth 8000 in
/-- Claim C4: on an HTTP error response with a readable body, the probe
returns the error status together with the digest and byte count of that
body — in particular, a zero-byte error body yields the MD5 digest of the
empty input (`d41d8…`), never `"-"`; on a transport failure with no response
it returns `(0, "-", 0)`; and the driver treats a `(0, "-", 0)` probe result
as an ordinary record, moving on to the next version in both modes instead
of aborting. -/
theorem c4_probe_error_handling :
    (∀ (s : Nat) (chunks : List (List Nat)),
      fetch_status_md5_bytes (.httpError s (.ok chunks))
        = .ok (s, md5HexBytes chunks.flatten, chunks.flatten.length))
    ∧ md5HexBytes [] = "d41d8cd98f00b204e9800998ecf8427e"
    ∧ md5HexBytes [] ≠ "-"
    ∧ (∀ t : TransportErr, fetch_status_md5_bytes (.transport t) = .ok (0, "-", 0))
    ∧ (∀ (inc : Bool) (base : String) (probe : String → Nat × String × Nat)
        (v : String) (rest : List String), probe (jsUrl base v) = (0, "-", 0) →
        scanLoop true inc base probe (v :: rest)
            = (recOf base probe v :: (scanLoop true inc base probe rest).1,
                (scanLoop true inc base probe rest).2)
          ∧ scanLoop false inc base probe (v :: rest)
            = scanLoop false inc base probe rest) := by
  refine ⟨?_, ?_, ?_, ?_, ?_⟩
  · intro s chunks
    have h1 : fetch_status_md5_bytes (.httpError s (.ok chunks))
        = .ok (handleHTTP s (.ok chunks)) := rfl
    rw [h1, handleHTTP]
    by_cases h : 0 < chunksLen chunks
    · rw [if_pos h, md5_chunks_one_shot, chunksLen_eq_flatten_length]
    · rw [if_neg h]
      have h0 : chunks.flatten.length = 0 := by
        rw [← chunksLen_eq_flatten_length]
        omega
      have hnil : chunks.flatten = [] := List.length_eq_zero.mp h0
      rw [chunksLen_eq_flatten_length, h0, hnil]
  · decide
  · decide
  · intro t
    cases t <;> rfl
  · intro inc base probe v rest hprobe
    have hrec : recOf base probe v = ⟨v, 0, "-", 0, jsUrl base v⟩ := by
      simp only [recOf, hprobe]
    constructor
    · rw [scanLoop, hrec]
      rfl
    · rw [scanLoop, hrec]
      rfl

/-- Witness for C4's driver-continues conjunct at a concrete probe. -/
theorem c4_probe_error_handling_witness :
    scanLoop true false ("http://x") (fun _ => (0, "-", 0)) ["1", "2"]
        = (recOf ("http://x") (fun _ => (0, "-", 0)) "1"
            :: (scanLoop true false ("http://x") (fun _ => (0, "-", 0)) ["2"]).1,
            (scanLoop true false ("http://x") (fun _ => (0, "-", 0)) ["2"]).2)
      ∧ scanLoop false false ("http://x") (fun _ => (0, "-", 0)) ["1", "2"]
        = scanLoop false false ("http://x") (fun _ => (0, "-", 0)) ["2"] :=
  c4_probe_error_handling.2.2.2.2 false ("http://x") (fun _ => (0, "-", 0))
    ("1") ["2"] rfl

/-- Claim C9: the probe is total — every abstract network outcome, HTTP
errors, transport failures and mid-stream read failures included, is mapped
to a returned triple (`.ok`), never a propagated exception; a read failure
while draining an error body yields `(status, "-", 0)` whatever bytes were
already hashed, and one while reading a success body yields `(0, "-", 0)`. -/
theorem c9_probe_total :
    (∀ o : FetchOutcome, ∃ r, fetch_status_md5_bytes o = .ok r)
    ∧ (∀ (s : Nat) (chunksRead : List (List Nat)),
        fetch_status_md5_bytes (.httpError s (.fail chunksRead)) = .ok (s, "-", 0))
    ∧ (∀ (s : Nat) (chunksRead : List (List Nat)),
        fetch_status_md5_bytes (.success s (.fail chunksRead)) = .ok (0, "-", 0)) := by
  refine ⟨?_, ?_, ?_⟩
  · intro o
    cases o with
    | success s b =>
      cases b with
      | ok chunks => exact ⟨_, rfl⟩
      | fail p => exact ⟨_, rfl⟩
    | httpError s b => exact ⟨_, rfl⟩
    | transport t => cases t <;> exact ⟨_, rfl⟩
  · intro s p
    rfl
  · intro s p
    rfl
